import Mathlib

/-!
Shallow embedding of the pure-arbitrage trading bot.

Prices, volumes and amounts are modelled as rationals (the Python code uses
floats; every claim about numeric results is stated "within floating
tolerance", which the exact rational model settles exactly).

Sources embedded here:
  * src/strategies/arbitrage_pure/types.py      (BinaryMarket, Arbitrage, ExecutionResult)
  * src/strategies/arbitrage_pure/detector.py   (ArbitragePureDetector.analyze_market / scan_markets)
  * src/strategies/arbitrage_pure/executor.py   (ArbitragePureExecutor.execute)
  * src/core/polymarket_client.py               (create_market_order, redeem, paper mode)
  * src/core/rate_limiter.py                    (AsyncRateLimiter.acquire)
  * src/core/position_manager.py                (PositionManager.close_position)
  * src/services/arbitrage_bot.py               (ArbitrageBotService._position_amount)
-/

/-- `ArbitrageType = Literal["long", "short"]` from types.py. -/
inductive ArbType where
  | long
  | short
deriving DecidableEq, Repr

/-- `BinaryMarket` dataclass from types.py (field order preserved). -/
structure BinaryMarket where
  market : String
  condition_id : String
  question : String
  volume : ℚ
  yes_bid : ℚ
  yes_ask : ℚ
  no_bid : ℚ
  no_ask : ℚ
  active : Bool := true
deriving DecidableEq, Repr

/-- `Arbitrage` dataclass from types.py. -/
structure Arbitrage where
  type : ArbType
  market : String
  condition_id : String
  profit : ℚ
  yes_price : ℚ
  no_price : ℚ
  timestamp : ℚ
  question : String := ""
deriving DecidableEq, Repr

/-- Configuration fields of the `ArbitragePureDetector` dataclass (detector.py). -/
structure ArbitragePureDetector where
  min_profit_threshold : ℚ := 1/200
  min_market_volume : ℚ := 10000
  long_sum_threshold : ℚ := 99/100
  short_sum_threshold : ℚ := 101/100
deriving DecidableEq, Repr

/-- The detector with all-default configuration (detector.py defaults). -/
def defaultDetector : ArbitragePureDetector := {}

/-- `ArbitragePureDetector.analyze_market` (detector.py lines 133-179).
`now` stands for the `time.time()` value used for the opportunity timestamp. -/
def analyzeMarket (d : ArbitragePureDetector) (now : ℚ) (m : BinaryMarket) : Option Arbitrage :=
  if m.active = false then none
  else if m.volume < d.min_market_volume then none
  else if min (min m.yes_bid m.yes_ask) (min m.no_bid m.no_ask) ≤ 0 then none
  else if m.yes_ask < m.yes_bid ∨ m.no_ask < m.no_bid then none
  else
    let long_sum := m.yes_ask + m.no_ask
    let short_sum := m.yes_bid + m.no_bid
    let best : Option Arbitrage :=
      if long_sum < d.long_sum_threshold then
        some ⟨.long, m.market, m.condition_id, max 0 (1 - long_sum), m.yes_ask, m.no_ask, now, m.question⟩
      else
        none
    if short_sum > d.short_sum_threshold then
      let cand : Arbitrage :=
        ⟨.short, m.market, m.condition_id, max 0 (short_sum - 1), m.yes_bid, m.no_bid, now, m.question⟩
      match best with
      | none => some cand
      | some b => if cand.profit > b.profit then some cand else some b
    else
      best

/-- The list of opportunities accumulated by `scan_markets` before sorting:
for each market in order, keep `analyze_market` results that are not `None`
and whose profit is not below `min_profit_threshold` (detector.py lines 81-88). -/
def scanCandidates (d : ArbitragePureDetector) (now : ℚ) (markets : List BinaryMarket) :
    List Arbitrage :=
  (markets.filterMap (analyzeMarket d now)).filter
    (fun a => !decide (a.profit < d.min_profit_threshold))

/-- Descending-profit order used by `opportunities.sort(key=lambda a: a.profit, reverse=True)`:
`a` may be placed before `b` exactly when `b.profit ≤ a.profit`. -/
def profitDescR (a b : Arbitrage) : Prop := b.profit ≤ a.profit

instance : DecidableRel profitDescR := fun a b => inferInstanceAs (Decidable (b.profit ≤ a.profit))

/-- `ArbitragePureDetector.scan_markets` (detector.py lines 64-93), restricted to its
pure core: analyze every fetched market, drop `None` and below-threshold results, then
stable-sort by descending profit.  Python's `list.sort` is a stable sort and with
`reverse=True` equal keys keep their original relative order, which is exactly the
behaviour of insertion sort under `profitDescR` (insert after strictly-greater,
before lower-or-equal keys). -/
def scanMarkets (d : ArbitragePureDetector) (now : ℚ) (markets : List BinaryMarket) :
    List Arbitrage :=
  List.insertionSort profitDescR (scanCandidates d now markets)

/-- Counterexample market for C1: active, quotes sum below 0.99 on the ask side,
but with volume 0 (below the default 10000 minimum). -/
def lowVolumeMarket : BinaryMarket :=
  ⟨"m-lowvol", "c-lowvol", "q", 0, 2/5, 2/5, 2/5, 2/5, true⟩

/-- Witness market for C1 (the long-arb market of tests/test_arbitrage_pure.py). -/
def longArbMarket : BinaryMarket :=
  ⟨"m1", "c1", "Long Arb", 50000, 47/100, 48/100, 48/100, 49/100, true⟩

/-- Witness configuration for C2: thresholds under which the long and the short
condition can hold simultaneously (both fields are configurable in detector.py). -/
def wideDetector : ArbitragePureDetector := ⟨0, 0, 3/2, 9/10⟩

/-- Witness market for C2: under `wideDetector` both the long condition
(1.2 < 1.5) and the short condition (1.1 > 0.9) hold. -/
def bothSidesMarket : BinaryMarket :=
  ⟨"m-both", "c-both", "q", 1, 11/20, 3/5, 11/20, 3/5, true⟩

instance : IsTotal Arbitrage profitDescR :=
  ⟨fun a b => (le_total b.profit a.profit).imp id id⟩

instance : IsTrans Arbitrage profitDescR :=
  ⟨fun _ _ _ h1 h2 => le_trans h2 h1⟩

/-- `OrderSide = Literal["BUY", "SELL"]` from polymarket_client.py. -/
inductive OrderSide where
  | buy
  | sell
deriving DecidableEq, Repr

/-- `Outcome = Literal["YES", "NO"]` from polymarket_client.py. -/
inductive Outcome where
  | yes
  | no
deriving DecidableEq, Repr

/-- `OrderConfig` dataclass from polymarket_client.py. -/
structure OrderConfig where
  market : String
  condition_id : String
  outcome : Outcome
  side : OrderSide
  shares : ℚ
  expected_price : ℚ
deriving DecidableEq, Repr

/-- `Order` dataclass from polymarket_client.py.  The paper path builds the id
from a fresh uuid; the id plays no role in any claim, so the model uses the
constant `"paper"` prefix alone. -/
structure Order where
  order_id : String
  market : String
  outcome : Outcome
  side : OrderSide
  filled_price : ℚ
  shares : ℚ
deriving DecidableEq, Repr

/-- The flags of `PolymarketClientService` that decide which branch the order
and redeem methods take (polymarket_client.py). -/
structure ClientMode where
  paper_trading : Bool := true
  mock_mode : Bool := true
  client_ready : Bool := false
deriving DecidableEq, Repr

/-- The default client construction (paper and mock mode on, no live client). -/
def defaultClient : ClientMode := {}

/-- `PolymarketClientService.create_market_order` (polymarket_client.py lines 94-113).
A raised exception is modelled as `Except.error` carrying the exception text. -/
def createMarketOrder (cl : ClientMode) (cfg : OrderConfig) : Except String Order :=
  if cfg.shares ≤ 0 then
    .error ("shares must be > 0")
  else if ¬ (0 < cfg.expected_price ∧ cfg.expected_price < 1) then
    .error ("expected_price must be in (0, 1)")
  else if cl.paper_trading || cl.mock_mode then
    .ok ⟨"paper", cfg.market, cfg.outcome, cfg.side, cfg.expected_price, cfg.shares⟩
  else if ¬ cl.client_ready then
    .error ("Polymarket client not initialized")
  else
    .error ("Real trading is not enabled in this repository by default.")

/-- `PolymarketClientService.redeem` (polymarket_client.py lines 115-124). -/
def redeem (cl : ClientMode) (yes_shares no_shares : ℚ) : Except String ℚ :=
  if cl.paper_trading || cl.mock_mode then
    .ok (if yes_shares ≤ 0 ∨ no_shares ≤ 0 then 0 else min yes_shares no_shares)
  else if ¬ cl.client_ready then
    .error ("Polymarket client not initialized")
  else
    .error ("On-chain redeem/merge is not enabled in this repository by default.")

/-- `ExecutionResult` dataclass from types.py. -/
structure ExecutionResult where
  market : String
  type : ArbType
  invested : ℚ
  received : ℚ
  profit : ℚ
  success : Bool
  error : Option String := none
deriving DecidableEq, Repr

/-- The body of the `try` block of `ArbitragePureExecutor.execute`
(executor.py lines 26-106), returning `(invested, received)` on success and the
raised exception text on failure.  In the long branch the Python code first
computes `received` from the two orders and immediately overwrites it with the
redeemed value, so only the redeemed value reaches the result.  The two
`asyncio.gather`ed legs are modelled sequentially: either leg failing fails the
pair, which is the joined behaviour of `gather`. -/
def executeCore (cl : ClientMode) (arb : Arbitrage) (amount : ℚ) : Except String (ℚ × ℚ) :=
  if amount ≤ 0 then
    .error ("amount must be > 0")
  else
    let sum_price := arb.yes_price + arb.no_price
    if sum_price ≤ 0 then
      .error ("invalid prices")
    else
      match arb.type with
      | .long =>
        let shares := amount / sum_price
        match createMarketOrder cl ⟨arb.market, arb.condition_id, .yes, .buy, shares, arb.yes_price⟩ with
        | .error e => .error e
        | .ok yes_order =>
          match createMarketOrder cl ⟨arb.market, arb.condition_id, .no, .buy, shares, arb.no_price⟩ with
          | .error e => .error e
          | .ok no_order =>
            match redeem cl yes_order.shares no_order.shares with
            | .error e => .error e
            | .ok redeemed => .ok (amount, redeemed)
      | .short =>
        match createMarketOrder cl ⟨arb.market, arb.condition_id, .yes, .sell, amount, arb.yes_price⟩ with
        | .error e => .error e
        | .ok yes_order =>
          match createMarketOrder cl ⟨arb.market, arb.condition_id, .no, .sell, amount, arb.no_price⟩ with
          | .error e => .error e
          | .ok no_order =>
            match redeem cl 0 0 with
            | .error e => .error e
            | .ok _ =>
              .ok (amount,
                   yes_order.shares * yes_order.filled_price +
                     no_order.shares * no_order.filled_price)

/-- `ArbitragePureExecutor.execute` (executor.py lines 23-133): the surrounding
`try`/`except` that always returns an `ExecutionResult`. -/
def execute (cl : ClientMode) (arb : Arbitrage) (amount : ℚ) : ExecutionResult :=
  match executeCore cl arb amount with
  | .ok (invested, received) =>
    ⟨arb.market, arb.type, invested, received, received - invested, true, none⟩
  | .error e =>
    ⟨arb.market, arb.type, amount, 0, 0, false, some e⟩

/-- Witness long opportunity for C5 (tests/test_arbitrage_pure.py). -/
def longArb : Arbitrage :=
  ⟨.long, "m1", "c1", 3/100, 48/100, 49/100, 0, "Long Arb"⟩

/-- Counterexample long opportunity for C5: positive combined price but the YES
leg priced at 1.5, which order submission rejects even in paper mode. -/
def badLegArb : Arbitrage :=
  ⟨.long, "m-bad", "c-bad", 3/10, 3/2, 1/5, 0, "q"⟩

/-- Witness short opportunity for C6 (tests/test_arbitrage_pure.py). -/
def shortArb : Arbitrage :=
  ⟨.short, "m2", "c2", 2/100, 52/100, 50/100, 0, "Short Arb"⟩

/-- Witness opportunity for C10: a YES leg priced at exactly 1.0. -/
def oneArb : Arbitrage :=
  ⟨.long, "m-one", "c-one", 0, 1, 1/2, 0, "q"⟩

/-- `ArbitrageBotService._position_amount` (arbitrage_bot.py lines 199-208),
as a function of the current balance and the configured position size. -/
def positionAmount (balance size : ℚ) : ℚ :=
  if balance ≤ 0 then 0
  else
    let s := if 0 < size ∧ size ≤ 1 then balance * size else size
    min s balance

/-- `Position` dataclass from models/trade.py (entry time modelled as ℚ). -/
structure Position where
  position_id : ℕ
  market_id : String
  side : String
  entry_price : ℚ
  entry_time : ℚ
  size_usd : ℚ
  shares : ℚ
  sl : ℚ
  tp : ℚ
deriving DecidableEq, Repr

/-- `Trade` dataclass from models/trade.py. -/
structure Trade where
  position_id : ℕ
  market_id : String
  side : String
  entry_price : ℚ
  entry_time : ℚ
  exit_price : ℚ
  exit_time : ℚ
  size_usd : ℚ
  shares : ℚ
  pnl : ℚ
  reason : String
deriving DecidableEq, Repr

/-- Mutable state of `PositionManager` (position_manager.py).  The `_positions`
dict keyed by position id is modelled as a list holding at most one entry per
id; removal by key is list filtering. -/
structure PMState where
  capital : ℚ
  positions : List Position
  trades : List Trade
  next_id : ℕ
deriving DecidableEq, Repr

/-- `PositionManager.close_position` (position_manager.py lines 57-81).
Raising `ValueError` on a non-positive exit price is the `Except.error` branch;
`self._positions.pop(position.position_id, None)` removes the entry with that
key if present and does nothing otherwise. -/
def closePosition (st : PMState) (p : Position) (exit_price exit_time : ℚ) (reason : String) :
    Except String (PMState × Trade) :=
  if exit_price ≤ 0 then
    .error ("exit_price must be > 0")
  else
    let exit_value := exit_price * p.shares
    let pnl := exit_value - p.size_usd
    let trade : Trade :=
      ⟨p.position_id, p.market_id, p.side, p.entry_price, p.entry_time,
       exit_price, exit_time, p.size_usd, p.shares, pnl, reason⟩
    .ok (⟨st.capital + exit_value,
          st.positions.filter (fun q => !decide (q.position_id = p.position_id)),
          st.trades ++ [trade],
          st.next_id⟩,
         trade)

/-- Concrete open position used by the C9 counterexample and witness
(the position opened in tests/test_position_manager.py). -/
def posA : Position :=
  ⟨1, "m1", "UP", 1/2, 0, 10, 20, 2/5, 7/10⟩

/-- A `PositionManager` state holding `posA` open with $90 free capital. -/
def pmOpenState : PMState :=
  ⟨90, [posA], [], 2⟩

/-- The Trade record produced by closing `posA` at exit price 0.6 and time 1:
exit value 12, pnl 2. -/
def trA : Trade :=
  ⟨1, "m1", "UP", 1/2, 0, 3/5, 1, 10, 20, 2, "TAKE_PROFIT"⟩

/-- The manager state after that close: capital 102, no open positions, one
trade recorded. -/
def pmClosedState : PMState :=
  ⟨102, [], [trA], 2⟩

/-- The purge loop of `AsyncRateLimiter.acquire` (rate_limiter.py lines 31-32
and 41-42): `while self._calls and now - self._calls[0] >= self.period_seconds:
self._calls.popleft()`. -/
def purgeOld (T t : ℚ) (calls : List ℚ) : List ℚ :=
  calls.dropWhile (fun c => decide (T ≤ t - c))

/-- One `AsyncRateLimiter.acquire` call (rate_limiter.py lines 22-44) at
monotonic-clock time `t`, over the deque of recorded call timestamps.
Returns the new deque and the time at which the call is admitted.

The lock is held across the whole body, including the sleep, so calls are
serialized and modelled sequentially.  When the window is full the code sleeps
`period - (now - calls[0])` and re-reads the clock; the model wakes exactly
when the sleep elapses.  The `match` arm for an empty purged deque is
unreachable when `0 < N` (the deque then holds at least `N ≥ 1` entries) and
mirrors the append-only behaviour. -/
def acquireAt (N : ℤ) (T t : ℚ) (calls : List ℚ) : List ℚ × ℚ :=
  if N ≤ 0 then (calls, t)
  else
    let c1 := purgeOld T t calls
    if (c1.length : ℤ) < N then (c1 ++ [t], t)
    else
      match c1 with
      | [] => (c1 ++ [t], t)
      | c0 :: _ =>
        let sleep_for := T - (t - c0)
        let w := if 0 < sleep_for then t + sleep_for else t
        let c2 := purgeOld T w c1
        (c2 ++ [w], w)

/-- Run a sequence of `acquire` calls.  The monotonic clock never runs
backwards and the lock serializes callers, so the `k`-th call reaches the
limiter at the previous admission time plus a nonnegative delay `δ`.
Returns the list of admission times in order. -/
def runAcquires (N : ℤ) (T : ℚ) : List ℚ → ℚ → List ℚ → List ℚ
  | _, _, [] => []
  | calls, tprev, d :: rest =>
    let r := acquireAt N T (tprev + d) calls
    r.2 :: runAcquires N T r.1 r.2 rest

/-- Number of admission times falling in the trailing window `(t - T, t]`:
an entry exactly `T` old is already outside (the purge condition is
`now - c >= period`). -/
def winCount (T t : ℚ) (l : List ℚ) : ℕ :=
  (l.filter (fun a => decide (t - T < a) && decide (a ≤ t))).length

/-- C1 counterexample: `lowVolumeMarket` has `yes_ask + no_ask = 0.8 < 0.99`,
yet `analyze_market` returns no opportunity at all (its volume ​0 is below the
default 10000 minimum), so the claim as stated — quantifying over every
`BinaryMarket` — is false. -/
theorem analyzeMarket_long_cex :
    lowVolumeMarket.yes_ask + lowVolumeMarket.no_ask < 99/100 ∧
    analyzeMarket defaultDetector 0 lowVolumeMarket = none := by
  constructor
  · norm_num [lowVolumeMarket]
  · decide

/-- C1 (amended): for every market that passes the analyze_market guards —
active, volume at least the configured minimum, all four prices positive and
an uncrossed book — with `yes_ask + no_ask` below the 0.99 long threshold,
`analyze_market` (default configuration) returns the long opportunity with
profit exactly `1 - (yes_ask + no_ask)`. -/
theorem analyzeMarket_long_amended (now : ℚ) (m : BinaryMarket)
    (hact : m.active = true)
    (hvol : defaultDetector.min_market_volume ≤ m.volume)
    (hpos : 0 < min (min m.yes_bid m.yes_ask) (min m.no_bid m.no_ask))
    (hys : m.yes_bid ≤ m.yes_ask) (hns : m.no_bid ≤ m.no_ask)
    (hlong : m.yes_ask + m.no_ask < 99/100) :
    analyzeMarket defaultDetector now m =
      some ⟨.long, m.market, m.condition_id, 1 - (m.yes_ask + m.no_ask),
            m.yes_ask, m.no_ask, now, m.question⟩ := by
  have hthrL : defaultDetector.long_sum_threshold = 99/100 := rfl
  have hthrS : defaultDetector.short_sum_threshold = 101/100 := rfl
  have hshort : ¬ (m.yes_bid + m.no_bid > defaultDetector.short_sum_threshold) := by
    rw [hthrS]
    push_neg
    linarith
  have hmax : max (0:ℚ) (1 - (m.yes_ask + m.no_ask)) = 1 - (m.yes_ask + m.no_ask) :=
    max_eq_right (by linarith)
  unfold analyzeMarket
  rw [if_neg (by simp [hact]), if_neg (not_lt.mpr hvol), if_neg (not_le.mpr hpos),
      if_neg (not_or.mpr ⟨not_lt.mpr hys, not_lt.mpr hns⟩)]
  have hlong' : m.yes_ask + m.no_ask < defaultDetector.long_sum_threshold := by
    rw [hthrL]; exact hlong
  dsimp only
  rw [if_neg hshort, if_pos hlong', hmax]

/-- Witness for the amended C1 at the long-arb market of the test suite:
profit is exactly 3% = 1 - (0.48 + 0.49). -/
theorem analyzeMarket_long_amended_witness :
    analyzeMarket defaultDetector 0 longArbMarket =
      some ⟨.long, "m1", "c1", 3/100, 48/100, 49/100, 0, "Long Arb"⟩ := by
  have h := analyzeMarket_long_amended 0 longArbMarket rfl
    (by norm_num [longArbMarket, defaultDetector])
    (by norm_num [longArbMarket]) (by norm_num [longArbMarket])
    (by norm_num [longArbMarket]) (by norm_num [longArbMarket])
  rw [h]
  norm_num [longArbMarket]

/-- C2: analyze_market returns at most one opportunity per market (its result
is an optional), and when a market passes the guards and both the long and the
short condition hold, the returned opportunity is the higher-profit of the two
candidates (the long one on profit ties, per the strict comparison in the code). -/
theorem analyzeMarket_single_best (d : ArbitragePureDetector) (now : ℚ) (m : BinaryMarket) :
    (analyzeMarket d now m).toList.length ≤ 1 ∧
    (m.active = true → d.min_market_volume ≤ m.volume →
     0 < min (min m.yes_bid m.yes_ask) (min m.no_bid m.no_ask) →
     m.yes_bid ≤ m.yes_ask → m.no_bid ≤ m.no_ask →
     m.yes_ask + m.no_ask < d.long_sum_threshold →
     m.yes_bid + m.no_bid > d.short_sum_threshold →
     ∃ a, analyzeMarket d now m = some a ∧
       max 0 (1 - (m.yes_ask + m.no_ask)) ≤ a.profit ∧
       max 0 ((m.yes_bid + m.no_bid) - 1) ≤ a.profit ∧
       (max 0 (1 - (m.yes_ask + m.no_ask)) < max 0 ((m.yes_bid + m.no_bid) - 1) →
         a.type = .short ∧ a.profit = max 0 ((m.yes_bid + m.no_bid) - 1)) ∧
       (max 0 ((m.yes_bid + m.no_bid) - 1) ≤ max 0 (1 - (m.yes_ask + m.no_ask)) →
         a.type = .long ∧ a.profit = max 0 (1 - (m.yes_ask + m.no_ask)))) := by
  constructor
  · cases analyzeMarket d now m <;> simp
  · intro hact hvol hpos hys hns hlong hshort
    unfold analyzeMarket
    rw [if_neg (by simp [hact]), if_neg (not_lt.mpr hvol), if_neg (not_le.mpr hpos),
        if_neg (not_or.mpr ⟨not_lt.mpr hys, not_lt.mpr hns⟩)]
    dsimp only
    rw [if_pos hshort, if_pos hlong]
    dsimp only
    by_cases hc :
        max 0 ((m.yes_bid + m.no_bid) - 1) > max (0:ℚ) (1 - (m.yes_ask + m.no_ask))
    · rw [if_pos hc]
      exact ⟨_, rfl, le_of_lt hc, le_refl _, fun _ => ⟨rfl, rfl⟩,
             fun hle => absurd hc (not_lt.mpr hle)⟩
    · rw [if_neg hc]
      exact ⟨_, rfl, le_refl _, not_lt.mp hc, fun hlt => absurd hlt hc,
             fun _ => ⟨rfl, rfl⟩⟩

/-- Witness for C2 at a configuration where both conditions hold on one market:
long sum 1.2 < threshold 1.5 and short sum 1.1 > threshold 0.9; the short
candidate (profit 0.1) beats the long one (profit 0) and is the one returned. -/
theorem analyzeMarket_single_best_witness :
    (analyzeMarket wideDetector 0 bothSidesMarket).toList.length ≤ 1 ∧
    ∃ a, analyzeMarket wideDetector 0 bothSidesMarket = some a ∧
      a.type = .short ∧ a.profit = 1/10 := by
  obtain ⟨h1, h2⟩ := analyzeMarket_single_best wideDetector 0 bothSidesMarket
  refine ⟨h1, ?_⟩
  obtain ⟨a, ha, _, _, hgt, _⟩ :=
    h2 rfl (by norm_num [bothSidesMarket, wideDetector]) (by norm_num [bothSidesMarket])
      (by norm_num [bothSidesMarket]) (by norm_num [bothSidesMarket])
      (by norm_num [bothSidesMarket, wideDetector])
      (by norm_num [bothSidesMarket, wideDetector])
  have hc := hgt (by norm_num [bothSidesMarket])
  refine ⟨a, ha, hc.1, ?_⟩
  rw [hc.2]
  norm_num [bothSidesMarket]

/-- Inserting `x` under `profitDescR` keeps every equal-profit class in order:
`x` lands after all strictly-greater profits and before the first
lower-or-equal one, so filtering for any fixed profit `p` sees `x` first in
its own class and every other class untouched. -/
theorem filter_orderedInsert_profit (p : ℚ) (x : Arbitrage) :
    ∀ s : List Arbitrage,
      List.filter (fun a => decide (a.profit = p)) (s.orderedInsert profitDescR x) =
        if x.profit = p then
          x :: List.filter (fun a => decide (a.profit = p)) s
        else
          List.filter (fun a => decide (a.profit = p)) s
  | [] => by
    by_cases hx : x.profit = p <;> simp [List.orderedInsert, hx]
  | y :: ys => by
    by_cases hr : profitDescR x y
    · simp only [List.orderedInsert, if_pos hr]
      by_cases hx : x.profit = p <;> by_cases hy : y.profit = p <;>
        simp [List.filter_cons, hx, hy]
    · simp only [List.orderedInsert, if_neg hr]
      have hgt : x.profit < y.profit := not_le.mp hr
      by_cases hx : x.profit = p
      · have hy : ¬ (y.profit = p) := by rw [← hx]; exact ne_of_gt hgt
        simp [List.filter_cons, hy, filter_orderedInsert_profit p x ys, hx]
      · by_cases hy : y.profit = p <;>
          simp [List.filter_cons, hy, filter_orderedInsert_profit p x ys, hx]

/-- Stability of the descending insertion sort: filtering any fixed profit
value commutes with sorting. -/
theorem filter_insertionSort_profit (p : ℚ) :
    ∀ l : List Arbitrage,
      List.filter (fun a => decide (a.profit = p)) (List.insertionSort profitDescR l) =
        List.filter (fun a => decide (a.profit = p)) l
  | [] => rfl
  | x :: l => by
    simp only [List.insertionSort]
    rw [filter_orderedInsert_profit]
    by_cases hx : x.profit = p <;>
      simp [hx, List.filter_cons, filter_insertionSort_profit p l]

/-- C3: scan_markets output is sorted by descending profit, and for every
profit value the equal-profit entries appear in exactly the order in which the
pre-sort candidate pass over the gateway's market list produced them (the
candidate list traverses the gateway's markets in their original order). -/
theorem scanMarkets_sorted_stable (d : ArbitragePureDetector) (now : ℚ)
    (markets : List BinaryMarket) :
    (scanMarkets d now markets).Pairwise (fun a b => b.profit ≤ a.profit) ∧
    ∀ p : ℚ,
      (scanMarkets d now markets).filter (fun a => decide (a.profit = p)) =
        (scanCandidates d now markets).filter (fun a => decide (a.profit = p)) := by
  constructor
  · exact List.sorted_insertionSort profitDescR (scanCandidates d now markets)
  · intro p
    exact filter_insertionSort_profit p (scanCandidates d now markets)

/-- Every error text produced by create_market_order is non-empty. -/
theorem createMarketOrder_error_ne (cl : ClientMode) (cfg : OrderConfig) (e : String) :
    createMarketOrder cl cfg = .error e → e ≠ "" := by
  unfold createMarketOrder
  split_ifs <;> intro h <;> simp at h <;> subst h <;> decide

/-- Every error text produced by redeem is non-empty. -/
theorem redeem_error_ne (cl : ClientMode) (y n : ℚ) (e : String) :
    redeem cl y n = .error e → e ≠ "" := by
  unfold redeem
  split_ifs <;> intro h <;> simp at h <;> subst h <;> decide

/-- Every error text produced by the body of execute is non-empty. -/
theorem executeCore_error_ne (cl : ClientMode) (arb : Arbitrage) (amount : ℚ) (e : String) :
    executeCore cl arb amount = .error e → e ≠ "" := by
  unfold executeCore
  intro h
  dsimp only at h
  split_ifs at h with h1 h2
  · simp at h; subst h; decide
  · simp at h; subst h; decide
  · cases harb : arb.type <;> rw [harb] at h <;> dsimp only at h
    · cases hy : createMarketOrder cl
          ⟨arb.market, arb.condition_id, .yes, .buy,
           amount / (arb.yes_price + arb.no_price), arb.yes_price⟩ with
      | error ey =>
        rw [hy] at h; simp at h; subst h
        exact createMarketOrder_error_ne _ _ _ hy
      | ok yo =>
        rw [hy] at h
        cases hn : createMarketOrder cl
            ⟨arb.market, arb.condition_id, .no, .buy,
             amount / (arb.yes_price + arb.no_price), arb.no_price⟩ with
        | error en =>
          rw [hn] at h; simp at h; subst h
          exact createMarketOrder_error_ne _ _ _ hn
        | ok noo =>
          rw [hn] at h
          dsimp only at h
          cases hr : redeem cl yo.shares noo.shares with
          | error er =>
            rw [hr] at h; simp at h; subst h
            exact redeem_error_ne _ _ _ _ hr
          | ok r => rw [hr] at h; simp at h
    · cases hy : createMarketOrder cl
          ⟨arb.market, arb.condition_id, .yes, .sell, amount, arb.yes_price⟩ with
      | error ey =>
        rw [hy] at h; simp at h; subst h
        exact createMarketOrder_error_ne _ _ _ hy
      | ok yo =>
        rw [hy] at h
        cases hn : createMarketOrder cl
            ⟨arb.market, arb.condition_id, .no, .sell, amount, arb.no_price⟩ with
        | error en =>
          rw [hn] at h; simp at h; subst h
          exact createMarketOrder_error_ne _ _ _ hn
        | ok noo =>
          rw [hn] at h
          dsimp only at h
          cases hr : redeem cl 0 0 with
          | error er =>
            rw [hr] at h; simp at h; subst h
            exact redeem_error_ne _ _ _ _ hr
          | ok r => rw [hr] at h; simp at h

/-- C4: execute is a total function into ExecutionResult — no failure escapes
it — and whenever the result is unsuccessful its profit is 0 and its error
field carries a non-empty description. -/
theorem execute_failure_shape (cl : ClientMode) (arb : Arbitrage) (amount : ℚ) :
    (execute cl arb amount).success = false →
      (execute cl arb amount).profit = 0 ∧
      ∃ e, (execute cl arb amount).error = some e ∧ e ≠ "" := by
  unfold execute
  cases hc : executeCore cl arb amount with
  | ok v =>
    obtain ⟨i, r⟩ := v
    intro h
    simp at h
  | error e =>
    intro _
    exact ⟨rfl, e, rfl, executeCore_error_ne cl arb amount e hc⟩

/-- Witness for C4 at a failing input: executing with amount −1 fails with
profit 0 and the non-empty error text of the amount guard. -/
theorem execute_failure_shape_witness :
    (execute defaultClient longArb (-1)).profit = 0 ∧
    ∃ e, (execute defaultClient longArb (-1)).error = some e ∧ e ≠ "" :=
  execute_failure_shape defaultClient longArb (-1) (by decide)

/-- C5 counterexample: `badLegArb` satisfies the claim's stated hypotheses
(long type, amount 10 > 0, yes_price + no_price = 1.7 > 0), yet paper-mode
execution fails — the YES leg price 1.5 is outside the (0,1) bound enforced by
order submission — so the result has success false, received 0 and profit 0,
and in particular profit ≠ received − amount. -/
theorem execute_long_cex :
    badLegArb.type = .long ∧ (0:ℚ) < 10 ∧
    0 < badLegArb.yes_price + badLegArb.no_price ∧
    (execute defaultClient badLegArb 10).success = false ∧
    ¬ ((execute defaultClient badLegArb 10).profit =
        (execute defaultClient badLegArb 10).received - 10) := by
  have hyes : createMarketOrder defaultClient
      ⟨badLegArb.market, badLegArb.condition_id, .yes, .buy,
       10 / (badLegArb.yes_price + badLegArb.no_price), badLegArb.yes_price⟩ =
      .error "expected_price must be in (0, 1)" := by
    unfold createMarketOrder
    rw [if_neg (by norm_num [badLegArb]), if_pos (by norm_num [badLegArb])]
  have hexec : execute defaultClient badLegArb 10 =
      ⟨badLegArb.market, .long, 10, 0, 0, false,
       some "expected_price must be in (0, 1)"⟩ := by
    unfold execute executeCore
    rw [if_neg (by norm_num : ¬ (10:ℚ) ≤ 0)]
    dsimp only
    rw [if_neg (by norm_num [badLegArb] :
          ¬ badLegArb.yes_price + badLegArb.no_price ≤ 0)]
    have ht : badLegArb.type = .long := rfl
    rw [ht]
    dsimp only
    rw [hyes]
  refine ⟨rfl, by norm_num, by norm_num [badLegArb], ?_, ?_⟩
  · rw [hexec]
  · rw [hexec]
    norm_num

/-- C5 (amended): for every long opportunity executed in paper/mock mode with
amount > 0 and both leg prices strictly inside (0,1) — the bounds order
submission checks — execute buys amount/(yes_price+no_price) shares of each
leg, the redeem step returns min(yes_shares, no_shares) × $1 = that share
count (both legs fill equally), and the result is successful with
received = amount/(yes_price+no_price) and profit = received − amount. -/
theorem execute_long_amended (cl : ClientMode) (arb : Arbitrage) (amount : ℚ)
    (hmode : (cl.paper_trading || cl.mock_mode) = true)
    (htype : arb.type = .long)
    (hamt : 0 < amount)
    (hy0 : 0 < arb.yes_price) (hy1 : arb.yes_price < 1)
    (hn0 : 0 < arb.no_price) (hn1 : arb.no_price < 1) :
    execute cl arb amount =
      ⟨arb.market, .long, amount, amount / (arb.yes_price + arb.no_price),
       amount / (arb.yes_price + arb.no_price) - amount, true, none⟩ := by
  have hsum : 0 < arb.yes_price + arb.no_price := by linarith
  have hshares : 0 < amount / (arb.yes_price + arb.no_price) := div_pos hamt hsum
  have hyes : createMarketOrder cl
      ⟨arb.market, arb.condition_id, .yes, .buy,
       amount / (arb.yes_price + arb.no_price), arb.yes_price⟩ =
      .ok ⟨"paper", arb.market, .yes, .buy, arb.yes_price,
           amount / (arb.yes_price + arb.no_price)⟩ := by
    unfold createMarketOrder
    rw [if_neg (not_le.mpr hshares), if_neg (not_not_intro ⟨hy0, hy1⟩), if_pos hmode]
  have hno : createMarketOrder cl
      ⟨arb.market, arb.condition_id, .no, .buy,
       amount / (arb.yes_price + arb.no_price), arb.no_price⟩ =
      .ok ⟨"paper", arb.market, .no, .buy, arb.no_price,
           amount / (arb.yes_price + arb.no_price)⟩ := by
    unfold createMarketOrder
    rw [if_neg (not_le.mpr hshares), if_neg (not_not_intro ⟨hn0, hn1⟩), if_pos hmode]
  have hred : redeem cl (amount / (arb.yes_price + arb.no_price))
      (amount / (arb.yes_price + arb.no_price)) =
      .ok (amount / (arb.yes_price + arb.no_price)) := by
    unfold redeem
    rw [if_pos hmode,
        if_neg (not_or.mpr ⟨not_le.mpr hshares, not_le.mpr hshares⟩), min_self]
  unfold execute executeCore
  rw [if_neg (not_le.mpr hamt)]
  dsimp only
  rw [if_neg (not_le.mpr hsum), htype]
  dsimp only
  rw [hyes]
  dsimp only
  rw [hno]
  dsimp only
  rw [hred]

/-- Witness for the amended C5 at the test-suite numbers: amount 10 at prices
0.48/0.49 gives shares = received = 1000/97 ≈ 10.309 and
profit = 30/97 ≈ 0.309, success true. -/
theorem execute_long_amended_witness :
    execute defaultClient longArb 10 =
      ⟨"m1", .long, 10, 1000/97, 30/97, true, none⟩ := by
  have h := execute_long_amended defaultClient longArb 10 rfl rfl
    (by norm_num) (by norm_num [longArb]) (by norm_num [longArb])
    (by norm_num [longArb]) (by norm_num [longArb])
  rw [h]
  norm_num [longArb]

/-- C6: for every short opportunity executed in paper/mock mode with
amount > 0 and leg prices valid for order submission (inside (0,1)), execute
sells amount shares of each leg, received = yes_shares×yes_price +
no_shares×no_price = amount×(yes_price+no_price), the no-op redeem(0,0) call
leaves the value untouched, and profit = received − amount, success true. -/
theorem execute_short_ok (cl : ClientMode) (arb : Arbitrage) (amount : ℚ)
    (hmode : (cl.paper_trading || cl.mock_mode) = true)
    (htype : arb.type = .short)
    (hamt : 0 < amount)
    (hy0 : 0 < arb.yes_price) (hy1 : arb.yes_price < 1)
    (hn0 : 0 < arb.no_price) (hn1 : arb.no_price < 1) :
    execute cl arb amount =
      ⟨arb.market, .short, amount,
       amount * arb.yes_price + amount * arb.no_price,
       amount * arb.yes_price + amount * arb.no_price - amount, true, none⟩ := by
  have hsum : 0 < arb.yes_price + arb.no_price := by linarith
  have hyes : createMarketOrder cl
      ⟨arb.market, arb.condition_id, .yes, .sell, amount, arb.yes_price⟩ =
      .ok ⟨"paper", arb.market, .yes, .sell, arb.yes_price, amount⟩ := by
    unfold createMarketOrder
    rw [if_neg (not_le.mpr hamt), if_neg (not_not_intro ⟨hy0, hy1⟩), if_pos hmode]
  have hno : createMarketOrder cl
      ⟨arb.market, arb.condition_id, .no, .sell, amount, arb.no_price⟩ =
      .ok ⟨"paper", arb.market, .no, .sell, arb.no_price, amount⟩ := by
    unfold createMarketOrder
    rw [if_neg (not_le.mpr hamt), if_neg (not_not_intro ⟨hn0, hn1⟩), if_pos hmode]
  have hred : redeem cl 0 0 = .ok 0 := by
    unfold redeem
    rw [if_pos hmode, if_pos (Or.inl (le_refl 0))]
  unfold execute executeCore
  rw [if_neg (not_le.mpr hamt)]
  dsimp only
  rw [if_neg (not_le.mpr hsum), htype]
  dsimp only
  rw [hyes]
  dsimp only
  rw [hno]
  dsimp only
  rw [hred]

/-- Witness for C6 at the test-suite numbers: amount 10 at prices 0.52/0.50
gives received = 51/5 = 10.2, profit = 1/5 = 0.2, success true. -/
theorem execute_short_ok_witness :
    execute defaultClient shortArb 10 =
      ⟨"m2", .short, 10, 51/5, 1/5, true, none⟩ := by
  have h := execute_short_ok defaultClient shortArb 10 rfl rfl
    (by norm_num) (by norm_num [shortArb]) (by norm_num [shortArb])
    (by norm_num [shortArb]) (by norm_num [shortArb])
  rw [h]
  norm_num [shortArb]

/-- C7 counterexample: with a negative balance the function returns 0, which
is strictly greater than the balance — so "the returned amount never exceeds
the current balance", read over every balance, is false. -/
theorem positionAmount_cex :
    positionAmount (-5) (1/10) = 0 ∧ ¬ (positionAmount (-5) (1/10) ≤ -5) := by
  have h : positionAmount (-5) (1/10) = 0 := by
    unfold positionAmount
    rw [if_pos (by norm_num : (-5:ℚ) ≤ 0)]
  exact ⟨h, by rw [h]; norm_num⟩

/-- C7 (amended): _position_amount returns 0 when the balance is ≤ 0; with a
positive balance a configured size in (0,1] yields size × balance, any other
size is treated as an absolute dollar amount clamped to the balance; and the
result never exceeds the balance whenever the balance is positive (with a
negative balance the returned 0 exceeds it). -/
theorem positionAmount_amended (balance size : ℚ) :
    (balance ≤ 0 → positionAmount balance size = 0) ∧
    (0 < balance → 0 < size → size ≤ 1 → positionAmount balance size = size * balance) ∧
    (0 < balance → ¬ (0 < size ∧ size ≤ 1) → positionAmount balance size = min size balance) ∧
    (0 < balance → positionAmount balance size ≤ balance) := by
  refine ⟨?_, ?_, ?_, ?_⟩
  · intro h
    unfold positionAmount
    rw [if_pos h]
  · intro hb hs0 hs1
    unfold positionAmount
    rw [if_neg (not_le.mpr hb)]
    dsimp only
    rw [if_pos ⟨hs0, hs1⟩, min_eq_left (mul_le_of_le_one_right (le_of_lt hb) hs1),
        mul_comm]
  · intro hb hs
    unfold positionAmount
    rw [if_neg (not_le.mpr hb)]
    dsimp only
    rw [if_neg hs]
  · intro hb
    unfold positionAmount
    rw [if_neg (not_le.mpr hb)]
    dsimp only
    exact min_le_right _ _

/-- Witness for the amended C7 at the spec's three cases: balance 100 with
fraction 0.1 gives 10, balance 100 with absolute 150 clamps to 100, and
balance 0 gives 0; the clamped value does not exceed the balance. -/
theorem positionAmount_amended_witness :
    positionAmount 100 (1/10) = 10 ∧ positionAmount 100 150 = 100 ∧
    positionAmount 0 5 = 0 ∧ positionAmount 100 150 ≤ 100 := by
  have h1 := (positionAmount_amended 100 (1/10)).2.1 (by norm_num) (by norm_num) (by norm_num)
  have h2 := (positionAmount_amended 100 150).2.2.1 (by norm_num) (by norm_num)
  have h3 := (positionAmount_amended 0 5).1 (le_refl 0)
  have h4 := (positionAmount_amended 100 150).2.2.2 (by norm_num)
  refine ⟨by rw [h1]; norm_num, by rw [h2]; norm_num, h3, h4⟩

/-- C9 counterexample: close_position does not guard against a stale Position:
closing `posA` twice succeeds both times and appends two Trade records (the
second `pop` is a no-op because of its `None` default), so the transition is
not one-time for a caller holding the consumed Position object. -/
theorem closePosition_eval_first :
    closePosition pmOpenState posA (3/5) 1 "TAKE_PROFIT" = .ok (pmClosedState, trA) := by
  unfold closePosition
  rw [if_neg (by norm_num : ¬ (3/5:ℚ) ≤ 0)]
  simp only [pmOpenState, posA, pmClosedState, trA, List.filter, Except.ok.injEq,
    Prod.mk.injEq, PMState.mk.injEq, Trade.mk.injEq, List.nil_append]
  norm_num

theorem closePosition_eval_second :
    closePosition pmClosedState posA (3/5) 1 "TAKE_PROFIT" =
      .ok (⟨114, [], [trA, trA], 2⟩, trA) := by
  unfold closePosition
  rw [if_neg (by norm_num : ¬ (3/5:ℚ) ≤ 0)]
  simp only [pmClosedState, posA, trA, List.filter, Except.ok.injEq,
    Prod.mk.injEq, PMState.mk.injEq, Trade.mk.injEq, List.cons_append, List.nil_append]
  norm_num

theorem closePosition_cex :
    ∃ st1 tr1 st2 tr2,
      closePosition pmOpenState posA (3/5) 1 "TAKE_PROFIT" = .ok (st1, tr1) ∧
      closePosition st1 posA (3/5) 1 "TAKE_PROFIT" = .ok (st2, tr2) ∧
      st1.positions = [] ∧
      st2.trades.length = 2 := by
  exact ⟨pmClosedState, trA, ⟨114, [], [trA, trA], 2⟩, trA,
         closePosition_eval_first, closePosition_eval_second, rfl, rfl⟩

/-- C9 (amended): a successful close_position removes every entry with the
position's id from the open set and appends exactly one Trade — the closed
position no longer appears among the open positions, so flows that pick
positions from the open set cannot close it twice — but the method itself does
not reject a repeated call with the already-consumed Position object. -/
theorem closePosition_consumes (st : PMState) (p : Position) (e t : ℚ) (r : String)
    (st' : PMState) (tr : Trade)
    (hp : 0 < e)
    (h : closePosition st p e t r = .ok (st', tr)) :
    st'.trades = st.trades ++ [tr] ∧
    st'.positions = st.positions.filter (fun q => !decide (q.position_id = p.position_id)) ∧
    ∀ q ∈ st'.positions, q.position_id ≠ p.position_id := by
  unfold closePosition at h
  rw [if_neg (not_le.mpr hp)] at h
  simp only [Except.ok.injEq, Prod.mk.injEq] at h
  obtain ⟨h1, h2⟩ := h
  subst h1
  subst h2
  refine ⟨rfl, rfl, ?_⟩
  intro q hq
  have hf := (List.mem_filter.mp hq).2
  simpa using hf

/-- Witness for the amended C9: closing the open test position removes it from
the open set and appends its single Trade record. -/
theorem closePosition_consumes_witness :
    ∃ st' tr, closePosition pmOpenState posA (3/5) 1 "TAKE_PROFIT" = .ok (st', tr) ∧
      st'.trades = pmOpenState.trades ++ [tr] ∧
      ∀ q ∈ st'.positions, q.position_id ≠ posA.position_id := by
  obtain ⟨h1, _, h3⟩ :=
    closePosition_consumes pmOpenState posA (3/5) 1 "TAKE_PROFIT" pmClosedState trA
      (by norm_num) closePosition_eval_first
  exact ⟨pmClosedState, trA, closePosition_eval_first, h1, h3⟩

/-- Every paper-mode order that comes back `ok` was validated: its price lies
strictly inside (0,1). -/
theorem createMarketOrder_ok_price (cl : ClientMode) (cfg : OrderConfig) (o : Order) :
    createMarketOrder cl cfg = .ok o →
      0 < cfg.shares ∧ 0 < cfg.expected_price ∧ cfg.expected_price < 1 := by
  unfold createMarketOrder
  intro h
  split_ifs at h with h1 h2 h3 h4
  exact ⟨not_le.mp h1, h2.1, h2.2⟩

/-- A long or short execution whose core succeeds had both leg prices strictly
below 1 (each leg passed order validation). -/
theorem executeCore_ok_legs (cl : ClientMode) (arb : Arbitrage) (amount : ℚ) (v : ℚ × ℚ) :
    executeCore cl arb amount = .ok v → arb.yes_price < 1 ∧ arb.no_price < 1 := by
  unfold executeCore
  intro h
  dsimp only at h
  split_ifs at h with h1 h2
  cases harb : arb.type <;> rw [harb] at h <;> dsimp only at h
  · cases hy : createMarketOrder cl
        ⟨arb.market, arb.condition_id, .yes, .buy,
         amount / (arb.yes_price + arb.no_price), arb.yes_price⟩ with
    | error ey => rw [hy] at h; simp at h
    | ok yo =>
      rw [hy] at h
      cases hn : createMarketOrder cl
          ⟨arb.market, arb.condition_id, .no, .buy,
           amount / (arb.yes_price + arb.no_price), arb.no_price⟩ with
      | error en => rw [hn] at h; simp at h
      | ok noo =>
        exact ⟨(createMarketOrder_ok_price _ _ _ hy).2.2,
               (createMarketOrder_ok_price _ _ _ hn).2.2⟩
  · cases hy : createMarketOrder cl
        ⟨arb.market, arb.condition_id, .yes, .sell, amount, arb.yes_price⟩ with
    | error ey => rw [hy] at h; simp at h
    | ok yo =>
      rw [hy] at h
      cases hn : createMarketOrder cl
          ⟨arb.market, arb.condition_id, .no, .sell, amount, arb.no_price⟩ with
      | error en => rw [hn] at h; simp at h
      | ok noo =>
        exact ⟨(createMarketOrder_ok_price _ _ _ hy).2.2,
               (createMarketOrder_ok_price _ _ _ hn).2.2⟩

/-- Entries dropped by the purge loop were at least `T` old at purge time, and
purging only drops a prefix. -/
theorem purgeOld_decomp (T t : ℚ) (calls : List ℚ) :
    ∃ dropped, calls = dropped ++ purgeOld T t calls ∧ ∀ x ∈ dropped, T ≤ t - x := by
  refine ⟨calls.takeWhile (fun c => decide (T ≤ t - c)), ?_, ?_⟩
  · rw [purgeOld, List.takeWhile_append_dropWhile]
  · intro x hx
    have hp := List.mem_takeWhile_imp hx
    simpa using hp

/-- Purging never lengthens the deque. -/
theorem purgeOld_length_le (T t : ℚ) (calls : List ℚ) :
    (purgeOld T t calls).length ≤ calls.length := by
  have h2 : (calls.takeWhile (fun c => decide (T ≤ t - c))).length +
      (purgeOld T t calls).length = calls.length := by
    rw [purgeOld, ← List.length_append, List.takeWhile_append_dropWhile]
  omega

/-- The first element of a `dropWhile` result fails the predicate. -/
theorem dropWhile_head_false (p : ℚ → Bool) :
    ∀ (l : List ℚ) (a : ℚ) (l' : List ℚ), l.dropWhile p = a :: l' → p a = false
  | [], a, l', h => by simp [List.dropWhile] at h
  | x :: xs, a, l', h => by
    by_cases hp : p x
    · rw [List.dropWhile_cons_of_pos hp] at h
      exact dropWhile_head_false p xs a l' h
    · rw [List.dropWhile_cons_of_neg hp] at h
      cases h
      simpa using hp

/-- The surviving head of a purged deque is still inside the window. -/
theorem purgeOld_head_not_old (T t : ℚ) (calls : List ℚ) (c0 : ℚ) (tl : List ℚ)
    (h : purgeOld T t calls = c0 :: tl) : ¬ T ≤ t - c0 := by
  have hp := dropWhile_head_false (fun c => decide (T ≤ t - c)) calls c0 tl h
  simpa using hp

/-- Purging past an expired head continues on the tail. -/
theorem purgeOld_cons_pos (T w c0 : ℚ) (tl : List ℚ) (h : T ≤ w - c0) :
    purgeOld T w (c0 :: tl) = purgeOld T w tl := by
  rw [purgeOld, purgeOld, List.dropWhile_cons_of_pos (by simpa using h)]

/-- Appending one admission at time `a` keeps every trailing window of
duration `T` at or below `Nn` admissions, provided every history entry outside
the current deque `c` had already expired at time `a` and the deque holds at
most `Nn - 1` entries. -/
theorem winCount_append_bound (Nn : ℕ) (T : ℚ) (h pre c : List ℚ) (a : ℚ)
    (hsplit : h = pre ++ c) (hold : ∀ x ∈ pre, x + T ≤ a)
    (hlen : c.length + 1 ≤ Nn)
    (hgap : ∀ u, winCount T u h ≤ Nn) :
    ∀ u, winCount T u (h ++ [a]) ≤ Nn := by
  intro u
  unfold winCount
  rw [List.filter_append]
  by_cases ha : (decide (u - T < a) && decide (a ≤ u)) = true
  · have hau : a ≤ u := by
      simp only [Bool.and_eq_true, decide_eq_true_eq] at ha
      exact ha.2
    have hpre : pre.filter (fun x => decide (u - T < x) && decide (x ≤ u)) = [] := by
      apply List.filter_eq_nil_iff.mpr
      intro x hx
      have hxa : x + T ≤ a := hold x hx
      simp only [Bool.and_eq_true, decide_eq_true_eq, not_and]
      intro hx1
      exact absurd hx1 (not_lt.mpr (by linarith))
    rw [hsplit, List.filter_append, hpre, List.nil_append]
    have h1 : (c.filter (fun x => decide (u - T < x) && decide (x ≤ u))).length ≤
        c.length := List.length_filter_le _ c
    have h2 : ([a].filter (fun x => decide (u - T < x) && decide (x ≤ u))).length ≤ 1 :=
      List.length_filter_le _ [a]
    rw [List.length_append]
    omega
  · have h0 : [a].filter (fun x => decide (u - T < x) && decide (x ≤ u)) = [] := by
      simp only [List.filter, Bool.not_eq_true] at ha ⊢
      rw [ha]
    rw [h0, List.append_nil]
    exact hgap u

/-- One `acquire` step at call time `t ≥ tprev` preserves the rate-limiter
invariant: the admission time does not precede `tprev`, the deque stays a
suffix of the admission history whose dropped part had expired by admission
time, the deque holds at most `N` entries, and no trailing window of duration
`T` over the history ever holds more than `N` admissions. -/
theorem acquireAt_step (N : ℤ) (T : ℚ) (hN : 0 < N) (h calls : List ℚ) (tprev t : ℚ)
    (ht : tprev ≤ t)
    (hdec : ∃ pre, h = pre ++ calls ∧ ∀ x ∈ pre, x + T ≤ tprev)
    (hlen : (calls.length : ℤ) ≤ N)
    (hgap : ∀ u, winCount T u h ≤ N.toNat) :
    tprev ≤ (acquireAt N T t calls).2 ∧
    (∃ pre, h ++ [(acquireAt N T t calls).2] = pre ++ (acquireAt N T t calls).1 ∧
        ∀ x ∈ pre, x + T ≤ (acquireAt N T t calls).2) ∧
    (((acquireAt N T t calls).1.length : ℤ) ≤ N) ∧
    (∀ u, winCount T u (h ++ [(acquireAt N T t calls).2]) ≤ N.toNat) := by
  obtain ⟨pre, hpre, hpreold⟩ := hdec
  obtain ⟨dropped, hdrop, hdropold⟩ := purgeOld_decomp T t calls
  have hc1len : (purgeOld T t calls).length ≤ calls.length := purgeOld_length_le T t calls
  unfold acquireAt
  rw [if_neg (not_le.mpr hN)]
  dsimp only
  by_cases hsl : ((purgeOld T t calls).length : ℤ) < N
  · rw [if_pos hsl]
    dsimp only
    refine ⟨ht, ⟨pre ++ dropped, ?_, ?_⟩, ?_, ?_⟩
    · conv_lhs => rw [hpre, hdrop]
      simp [List.append_assoc]
    · intro x hx
      rcases List.mem_append.mp hx with hx | hx
      · linarith [hpreold x hx]
      · linarith [hdropold x hx]
    · rw [List.length_append, List.length_singleton]
      push_cast
      omega
    · apply winCount_append_bound N.toNat T h (pre ++ dropped) (purgeOld T t calls) t
      · conv_lhs => rw [hpre, hdrop]
        simp [List.append_assoc]
      · intro x hx
        rcases List.mem_append.mp hx with hx | hx
        · linarith [hpreold x hx]
        · linarith [hdropold x hx]
      · omega
      · exact hgap
  · rw [if_neg hsl]
    cases hc1 : purgeOld T t calls with
    | nil =>
      rw [hc1] at hsl
      exact absurd (by simpa using hN) hsl
    | cons c0 tl =>
      dsimp only
      have hc0 : ¬ T ≤ t - c0 := purgeOld_head_not_old T t calls c0 tl hc1
      have hsleep : 0 < T - (t - c0) := by linarith [not_le.mp hc0]
      rw [if_pos hsleep]
      have hw : t + (T - (t - c0)) = c0 + T := by ring
      rw [hw]
      have htw : t ≤ c0 + T := by linarith
      rw [purgeOld_cons_pos T (c0 + T) c0 tl (by linarith)]
      obtain ⟨dropped2, hdrop2, hdrop2old⟩ := purgeOld_decomp T (c0 + T) tl
      have hc2len : (purgeOld T (c0 + T) tl).length ≤ tl.length :=
        purgeOld_length_le T (c0 + T) tl
      have hc1cal : tl.length + 1 ≤ calls.length := by
        have := congrArg List.length hdrop
        rw [hc1] at this
        simp [List.length_append] at this
        omega
      have hsplit2 : h = (pre ++ dropped ++ (c0 :: dropped2)) ++ purgeOld T (c0 + T) tl := by
        conv_lhs => rw [hpre, hdrop, hc1, hdrop2]
        simp [List.append_assoc]
      have hold2 : ∀ x ∈ pre ++ dropped ++ (c0 :: dropped2), x + T ≤ c0 + T := by
        intro x hx
        rcases List.mem_append.mp hx with hx | hx
        · rcases List.mem_append.mp hx with hx | hx
          · linarith [hpreold x hx]
          · linarith [hdropold x hx]
        · rcases List.mem_cons.mp hx with hx | hx
          · subst hx; linarith
          · linarith [hdrop2old x hx]
      refine ⟨by linarith, ⟨pre ++ dropped ++ (c0 :: dropped2), ?_, hold2⟩, ?_, ?_⟩
      · conv_lhs => rw [hsplit2]
        simp [List.append_assoc]
      · rw [List.length_append, List.length_singleton]
        push_cast
        omega
      · apply winCount_append_bound N.toNat T h (pre ++ dropped ++ (c0 :: dropped2))
          (purgeOld T (c0 + T) tl) (c0 + T) hsplit2 hold2 (by omega) hgap

/-- Running any sequence of acquires with nonnegative inter-call delays keeps
every trailing window over the whole admission history at or below `N`. -/
theorem runAcquires_window (N : ℤ) (T : ℚ) (hN : 0 < N) :
    ∀ (ds h calls : List ℚ) (tprev : ℚ),
      (∀ δ ∈ ds, 0 ≤ δ) →
      (∃ pre, h = pre ++ calls ∧ ∀ x ∈ pre, x + T ≤ tprev) →
      ((calls.length : ℤ) ≤ N) →
      (∀ u, winCount T u h ≤ N.toNat) →
      ∀ u, winCount T u (h ++ runAcquires N T calls tprev ds) ≤ N.toNat
  | [], h, calls, tprev, _, _, _, hgap, u => by
    simpa [runAcquires] using hgap u
  | d :: rest, h, calls, tprev, hds, hdec, hlen, hgap, u => by
    have hd0 : 0 ≤ d := hds d (List.mem_cons_self d rest)
    obtain ⟨hta, hdec2, hlen2, hgap2⟩ :=
      acquireAt_step N T hN h calls tprev (tprev + d) (by linarith) hdec hlen hgap
    have hrec := runAcquires_window N T hN rest
      (h ++ [(acquireAt N T (tprev + d) calls).2])
      (acquireAt N T (tprev + d) calls).1 (acquireAt N T (tprev + d) calls).2
      (fun x hx => hds x (List.mem_cons_of_mem d hx)) hdec2 hlen2 hgap2 u
    simpa [runAcquires, List.append_assoc] using hrec

/-- C8: for every sequence of acquire calls on a limiter with max_calls N > 0
and window T — successive call times advance by nonnegative delays, as the
serialized lock and the monotonic clock guarantee — no trailing window of
duration T ever contains more than N admission times (an acquire that finds N
admissions still in the window is admitted only once the oldest has left);
and for N ≤ 0 every acquire returns immediately, recording nothing. -/
theorem rateLimiter_window_bound (N : ℤ) (T t0 : ℚ) (ds : List ℚ) :
    (0 < N → (∀ d ∈ ds, 0 ≤ d) →
      ∀ u, winCount T u (runAcquires N T [] t0 ds) ≤ N.toNat) ∧
    (N ≤ 0 → ∀ (t : ℚ) (calls : List ℚ), acquireAt N T t calls = (calls, t)) := by
  constructor
  · intro hN hds u
    have h := runAcquires_window N T hN ds [] [] t0 hds
      ⟨[], rfl, by intro x hx; cases hx⟩ (by simpa using le_of_lt hN)
      (by intro u'; simp [winCount]) u
    simpa using h
  · intro hN t calls
    unfold acquireAt
    rw [if_pos hN]

/-- Witness for C8: a limiter with max_calls 1 and a 1-second window admits
three back-to-back calls with no window of duration 1 holding more than one of
them, and a disabled limiter (max_calls −1) returns immediately leaving its
deque untouched. -/
theorem rateLimiter_window_bound_witness :
    winCount 1 (1/2) (runAcquires 1 1 [] 0 [0, 0, 0]) ≤ 1 ∧
    acquireAt (-1) 1 5 [2] = ([2], 5) := by
  constructor
  · have h := (rateLimiter_window_bound 1 1 0 [0, 0, 0]).1 (by norm_num)
      (by intro d hd; simp at hd; simp [hd]) (1/2)
    simpa using h
  · exact (rateLimiter_window_bound (-1) 1 0 []).2 (by norm_num) 5 [2]

/-- C10: in paper/mock mode create_market_order returns an order — filled at
the requested expected price and share count — exactly when shares > 0 and the
expected price lies strictly between 0 and 1 (a price of exactly 1.0 or more
raises); consequently an opportunity with any leg priced at 1.0 or above
always yields a failed ExecutionResult, even in simulation. -/
theorem createMarketOrder_valid_iff (cl : ClientMode) (cfg : OrderConfig)
    (arb : Arbitrage) (amount : ℚ)
    (hmode : (cl.paper_trading || cl.mock_mode) = true) :
    ((∃ o, createMarketOrder cl cfg = .ok o ∧
        o.filled_price = cfg.expected_price ∧ o.shares = cfg.shares) ↔
      (0 < cfg.shares ∧ 0 < cfg.expected_price ∧ cfg.expected_price < 1)) ∧
    ((1 ≤ arb.yes_price ∨ 1 ≤ arb.no_price) →
      (execute cl arb amount).success = false) := by
  constructor
  · constructor
    · rintro ⟨o, ho, _, _⟩
      exact createMarketOrder_ok_price cl cfg o ho
    · rintro ⟨hs, hp0, hp1⟩
      refine ⟨⟨"paper", cfg.market, cfg.outcome, cfg.side, cfg.expected_price, cfg.shares⟩,
              ?_, rfl, rfl⟩
      unfold createMarketOrder
      rw [if_neg (not_le.mpr hs), if_neg (not_not_intro ⟨hp0, hp1⟩), if_pos hmode]
  · intro hbad
    unfold execute
    cases hc : executeCore cl arb amount with
    | ok v =>
      obtain ⟨hy1, hn1⟩ := executeCore_ok_legs cl arb amount v hc
      rcases hbad with hb | hb
      · exact absurd hb (not_le.mpr hy1)
      · exact absurd hb (not_le.mpr hn1)
    | error e => rfl

/-- Witness for C10: a valid paper order (shares 2 at price 0.5) fills as
requested, while the opportunity with its YES leg at exactly 1.0 produces an
unsuccessful ExecutionResult. -/
theorem createMarketOrder_valid_iff_witness :
    (∃ o, createMarketOrder defaultClient ⟨"m", "c", .yes, .buy, 2, 1/2⟩ = .ok o ∧
        o.filled_price = 1/2 ∧ o.shares = 2) ∧
    (execute defaultClient oneArb 10).success = false := by
  obtain ⟨hiff, hexe⟩ :=
    createMarketOrder_valid_iff defaultClient ⟨"m", "c", .yes, .buy, 2, 1/2⟩ oneArb 10 rfl
  exact ⟨hiff.mpr (by norm_num), hexe (Or.inl (by norm_num [oneArb]))⟩

